import Mathlib

/- Formal model of the rpi-weather-station program (ws.py and mqtt.py):
   a shallow embedding of its sampling engine, numeric reductions and
   publishing glue, with machine-checked statements about their behaviour. -/

namespace WS

/- Pulse-edge counter (ws.py, ButtonSampler).  `_sample` stores the current
   counter into the window and then, in a separate statement, resets the
   counter to zero, while the GPIO callback `_tick` increments the counter
   from another thread.  Each Python statement is modelled as one atomic
   step; an execution is an arbitrary interleaving of these steps. -/

structure CounterState where
  count : Nat
  windows : List Nat
deriving DecidableEq

inductive PulseOp where
  | tick
  | sampleRead
  | sampleReset
deriving DecidableEq, BEq

def stepPulse (st : CounterState) : PulseOp → CounterState
  | PulseOp.tick => ⟨st.count + 1, st.windows⟩
  | PulseOp.sampleRead => ⟨st.count, st.windows ++ [st.count]⟩
  | PulseOp.sampleReset => ⟨0, st.windows⟩

def runPulse (ops : List PulseOp) (st : CounterState) : CounterState :=
  ops.foldl stepPulse st

def countTicks (ops : List PulseOp) : Nat :=
  (ops.filter (fun o => o == PulseOp.tick)).length

/-- C1: the pulse counter's read-and-reset is not indivisible.  In the
interleaving below two pulses are delivered across one read-and-reset, yet
the two adjacent sampling windows record a total of one event: the pulse
arriving between the read of the counter and its reset to zero is erased
by the reset, so one event is lost rather than attributed to a window. -/
theorem pulse_read_reset_not_atomic :
    countTicks [PulseOp.tick, PulseOp.sampleRead, PulseOp.tick,
        PulseOp.sampleReset, PulseOp.sampleRead, PulseOp.sampleReset] = 2 ∧
    (runPulse [PulseOp.tick, PulseOp.sampleRead, PulseOp.tick,
        PulseOp.sampleReset, PulseOp.sampleRead, PulseOp.sampleReset]
        ⟨0, []⟩).windows = [1, 0] ∧
    ((runPulse [PulseOp.tick, PulseOp.sampleRead, PulseOp.tick,
        PulseOp.sampleReset, PulseOp.sampleRead, PulseOp.sampleReset]
        ⟨0, []⟩).windows).sum = 1 := by
  decide

/- Reading store schema (ws.py, WeatherStation.__init__).  The dict literal
   repeats "humidity"; the resulting store has these twelve keys in this
   insertion order. -/

def readingKeys : List String :=
  ["humidity", "pressure", "pressure-trend", "temperature",
   "temperature-trend", "dew_point", "wind_deg", "wind_gust",
   "wind_speed", "rain_1h", "rain_6h", "rain_24h"]

/- WeatherStation._publish builds the forwarded batch from the intersection
   of the store's keys with the requested key set. -/
def publishKeys (keys : List String) : List String :=
  readingKeys.filter (fun k => keys.contains k)

def bmeUpdatedKeys : List String :=
  ["humidity", "pressure", "pressure-trend", "temperature",
   "temperature-trend", "dew_point"]

def bmePublishArg : List String :=
  ["humidity", "pressure", "pressure-trend", "temperature",
   "temperature-trend", "dew_point"]

def rainUpdatedKeys : List String := ["rain_1h", "rain_6h", "rain_24h"]

def rainPublishArg : List String := ["rain_1h", "rain_6h", "rain_24"]

def windDirectionUpdatedKeys : List String := ["wind_deg"]

def windDirectionPublishArg : List String := ["wind_deg"]

def windSpeedUpdatedKeys : List String := ["wind_gust", "wind_speed"]

def windSpeedPublishArg : List String := ["wind_gust", "wind_speed"]

/-- C3: the rain callback updates rain_1h, rain_6h and rain_24h, but its
publish set names the nonexistent key "rain_24", which the store-key
intersection in _publish silently drops; the emitted batch is exactly
[rain_1h, rain_6h] and rain_24h is never published.  The other three
callbacks emit exactly the keys they update. -/
theorem rain_batch_missing_rain24h :
    publishKeys rainPublishArg = ["rain_1h", "rain_6h"] ∧
    rainUpdatedKeys = ["rain_1h", "rain_6h", "rain_24h"] ∧
    ¬ ("rain_24h" ∈ publishKeys rainPublishArg) ∧
    publishKeys bmePublishArg = bmeUpdatedKeys ∧
    publishKeys windDirectionPublishArg = windDirectionUpdatedKeys ∧
    publishKeys windSpeedPublishArg = windSpeedUpdatedKeys := by
  decide

/- Sampler construction (ws.py, IntervalSampler.__init__).  The size is
   int(duration / interval), Python's int() truncating toward zero; the
   only possible failure is a zero interval (division by zero), modelled
   as the `none` result.  No other configuration is rejected. -/

def pyInt (q : ℚ) : Int :=
  if q < 0 then -⌊-q⌋ else ⌊q⌋

def initSampler (interval duration : ℚ) : Option (ℚ × Int) :=
  if interval = 0 then none
  else some (interval, pyInt (duration / interval))

/-- C5: a retention duration (1 s) smaller than the sampling interval (2 s)
is not rejected at construction: initialisation succeeds and yields a
window capacity of 0 instead of failing. -/
theorem init_accepts_small_duration : initSampler 2 1 = some (2, 0) := by
  have h2 : ((2 : ℚ)) ≠ 0 := by norm_num
  have h0 : ¬((1 : ℚ) / 2 < 0) := by norm_num
  have hfl : ⌊(1 : ℚ) / 2⌋ = 0 := by
    rw [Int.floor_eq_zero_iff, Set.mem_Ico]
    constructor <;> norm_num
  unfold initSampler pyInt
  rw [if_neg h2, if_neg h0, hfl]

/-- C5 amended: construction never fails for a positive interval; whenever
0 ≤ duration < interval, it succeeds with capacity
floor(duration / interval) = 0 rather than raising a configuration error. -/
theorem init_size_zero_when_small (i d : ℚ) (hi : 0 < i) (hd : 0 ≤ d)
    (hdi : d < i) : initSampler i d = some (i, 0) := by
  have hne : i ≠ 0 := ne_of_gt hi
  have h0 : (0 : ℚ) ≤ d / i := div_nonneg hd (le_of_lt hi)
  have h1 : d / i < 1 := (div_lt_one hi).mpr hdi
  have hfl : ⌊d / i⌋ = 0 := by
    rw [Int.floor_eq_zero_iff, Set.mem_Ico]
    exact ⟨h0, h1⟩
  unfold initSampler pyInt
  rw [if_neg hne, if_neg (not_lt.mpr h0), hfl]

/-- C5 amended, witness: interval 3 s, duration 1 s. -/
theorem init_size_zero_when_small_witness : initSampler 3 1 = some (3, 0) :=
  init_size_zero_when_small 3 1 zero_lt_three zero_le_one (by norm_num)

/- Sliding window storage (ws.py, IntervalSampler._store): append the new
   sample, then keep `self._data[-self._size:]`.  Python's negative-index
   slice keeps the last k elements when k ≥ 1, but `[-0:]` is `[0:]`,
   i.e. the whole list. -/

def pyTail {α : Type} (k : Nat) (l : List α) : List α :=
  if k = 0 then l else l.drop (l.length - k)

def store {α : Type} (size : Nat) (data : List α) (x : α) : List α :=
  pyTail size (data ++ [x])

def runStore {α : Type} (size : Nat) (base : List α) (xs : List α) : List α :=
  xs.foldl (store size) base

theorem store_drop {α : Type} (size : Nat) (hs : 1 ≤ size) (l : List α)
    (a : α) :
    store size (l.drop (l.length - size)) a =
      (l ++ [a]).drop (l.length + 1 - size) := by
  have hs0 : size ≠ 0 := Nat.one_le_iff_ne_zero.mp hs
  unfold store pyTail
  rw [if_neg hs0]
  rcases Nat.le_total l.length size with hle | hge
  · rw [Nat.sub_eq_zero_of_le hle, List.drop_zero]
    have h1 : (l ++ [a]).length = l.length + 1 := by simp
    rw [h1]
  · have hlen : (l.drop (l.length - size)).length = size := by
      rw [List.length_drop]; omega
    have h1 : (l.drop (l.length - size) ++ [a]).length = size + 1 := by
      simp [hlen]
    rw [h1]
    have h2 : size + 1 - size = 1 := by omega
    rw [h2]
    have h3 : (l.drop (l.length - size) ++ [a]).drop 1 =
        (l.drop (l.length - size)).drop 1 ++ [a] := by
      apply List.drop_append_of_le_length
      rw [hlen]; exact hs
    rw [h3, List.drop_drop]
    have h4 : (l ++ [a]).drop (l.length + 1 - size) =
        l.drop (l.length + 1 - size) ++ [a] := by
      apply List.drop_append_of_le_length
      omega
    rw [h4]
    have h5 : l.length - size + 1 = l.length + 1 - size := by omega
    rw [h5]

theorem runStore_eq_drop {α : Type} (size : Nat) (hs : 1 ≤ size)
    (xs : List α) : runStore size [] xs = xs.drop (xs.length - size) := by
  induction xs using List.reverseRecOn with
  | nil => simp [runStore]
  | append_singleton l a ih =>
      unfold runStore at ih ⊢
      rw [List.foldl_append, ih]
      have h := store_drop size hs l a
      simpa using h

/-- C6: with retention 1 s and interval 2 s the claimed capacity is
floor(1/2) = 0, but such a window never evicts anything: the `[-0:]` slice
keeps the whole list, so after three appends the window holds three
elements, exceeding the claimed capacity of 0. -/
theorem window_unbounded_at_capacity_zero :
    pyInt (1 / 2) = 0 ∧
    runStore 0 ([] : List Nat) [1, 2, 3] = [1, 2, 3] ∧
    ¬ ((runStore 0 ([] : List Nat) [1, 2, 3]).length ≤ 0) := by
  refine ⟨?_, by decide, by decide⟩
  have h0 : ¬((1 : ℚ) / 2 < 0) := by norm_num
  have hfl : ⌊(1 : ℚ) / 2⌋ = 0 := by
    rw [Int.floor_eq_zero_iff, Set.mem_Ico]
    constructor <;> norm_num
  unfold pyInt
  rw [if_neg h0, hfl]

/-- C6 amended: for every window whose capacity floor(retention/interval)
is at least 1, the stored window is exactly the suffix of the appended
samples of length at most the capacity: its length never exceeds the
capacity, its elements stay in acquisition order (oldest first), and after
capacity + 1 appends it holds exactly the most recent capacity samples,
the oldest discarded. -/
theorem window_ring_buffer {α : Type} (size : Nat) (hs : 1 ≤ size)
    (xs : List α) :
    runStore size [] xs = xs.drop (xs.length - size) ∧
    (runStore size [] xs).length ≤ size ∧
    (xs.length = size + 1 → runStore size [] xs = xs.tail) := by
  have h := runStore_eq_drop size hs xs
  refine ⟨h, ?_, ?_⟩
  · rw [h, List.length_drop]; omega
  · intro hlen
    rw [h, hlen]
    have h1 : size + 1 - size = 1 := by omega
    rw [h1, List.drop_one]

/-- C6 amended, witness: capacity 2, three appends evict the first sample. -/
theorem window_ring_buffer_witness :
    runStore 2 ([] : List Nat) [1, 2, 3] = [2, 3] ∧
    (runStore 2 ([] : List Nat) [1, 2, 3]).length ≤ 2 := by
  have h := window_ring_buffer 2 (by decide) ([1, 2, 3] : List Nat)
  refine ⟨?_, h.2.1⟩
  rw [h.2.2 (by decide)]
  rfl

/- Publishing glue (mqtt.py).  Module state: the per-key last readings
   `data` and the shared `timestamp` clock; per incoming batch the listener
   walks the readings dict, merging and publishing.  A publish is either a
   per-key value publish (topic ws/<key>) or a clock publish (ws/dt).
   Readings carry an optional value, a timestamp in epoch seconds, and a
   unit, mirroring ws.SensorReading. -/

structure Reading where
  value : Option Int
  ts : Int
  unit : String
deriving DecidableEq

structure LState where
  data : List (String × Reading)
  clock : Option Int
deriving DecidableEq

inductive Pub where
  | key (k : String) (v : Option Int)
  | dt (t : Int)
deriving DecidableEq

/- Assignment `data[key] = reading` on a Python dict: replace the existing
   binding, else append a new one. -/
def assocSet : List (String × Reading) → String → Reading →
    List (String × Reading)
  | [], k, v => [(k, v)]
  | p :: rest, k, v =>
      if p.1 = k then (k, v) :: rest else p :: assocSet rest k v

/- Lines 19-22 of mqtt.py: adopt the incoming timestamp when the clock is
   unset or strictly older. -/
def mergeClock (clock : Option Int) (t : Int) : Option Int :=
  match clock with
  | none => some t
  | some c => if c < t then some t else some c

/- Lines 27-29 of mqtt.py: when the clock is set, publish it and advance
   it by one second. -/
def dtPubs (clock : Option Int) : List Pub :=
  match clock with
  | none => []
  | some c => [Pub.dt c]

def bumpClock (clock : Option Int) : Option Int :=
  match clock with
  | none => none
  | some c => some (c + 1)

/- One iteration of the loop in mqtt.py's listener, for one (key, reading)
   pair: returns the new module state and the publishes it emitted. -/
def listenerStep (st : LState) (e : String × Reading) : LState × List Pub :=
  match st.data.lookup e.1 with
  | none =>
      (⟨assocSet st.data e.1 ⟨e.2.value, e.2.ts, e.2.unit⟩,
        bumpClock st.clock⟩,
       Pub.key e.1 e.2.value :: dtPubs st.clock)
  | some stored =>
      if stored.value ≠ none then
        let c1 := mergeClock st.clock e.2.ts
        if e.2.value = stored.value then (⟨st.data, c1⟩, [])
        else
          (⟨assocSet st.data e.1 ⟨e.2.value, e.2.ts, stored.unit⟩,
            bumpClock c1⟩,
           Pub.key e.1 e.2.value :: dtPubs c1)
      else
        (⟨st.data, bumpClock st.clock⟩,
         Pub.key e.1 stored.value :: dtPubs st.clock)

def runListener (st : LState) : List (String × Reading) → LState × List Pub
  | [] => (st, [])
  | e :: rest =>
      let r1 := listenerStep st e
      let r2 := runListener r1.1 rest
      (r2.1, r1.2 ++ r2.2)

def keyPubCount (out : List Pub) (k : String) : Nat :=
  (out.filter (fun p => match p with
    | Pub.key k2 _ => k2 == k
    | Pub.dt _ => false)).length

def keyPubTotal (out : List Pub) : Nat :=
  (out.filter (fun p => match p with
    | Pub.key _ _ => true
    | Pub.dt _ => false)).length

def dtPubCount (out : List Pub) : Nat :=
  (out.filter (fun p => match p with
    | Pub.key _ _ => false
    | Pub.dt _ => true)).length

/- The condition under which the listener's `continue` suppresses the
   forward for a key: the key is known, its stored value is not None, and
   the incoming value equals the stored one. -/
def skips (st : LState) (k : String) (r : Reading) : Bool :=
  match st.data.lookup k with
  | none => false
  | some stored => stored.value.isSome && (r.value == stored.value)

/-- C2: a batch carrying a value unchanged from the last forwarded value of
a previously seen key is not forwarded at all.  After a first batch
establishes key "k" with value 5, a second batch with the same value emits
no publish whatsoever (the equality check hits `continue`), not exactly
one. -/
theorem listener_skips_unchanged_value :
    keyPubCount
      (runListener (runListener ⟨[], none⟩ [("k", ⟨some 5, 100, "u"⟩)]).1
        [("k", ⟨some 5, 101, "u"⟩)]).2 "k" = 0 ∧
    (runListener (runListener ⟨[], none⟩ [("k", ⟨some 5, 100, "u"⟩)]).1
        [("k", ⟨some 5, 101, "u"⟩)]).2 = [] := by
  decide

theorem lookup_assocSet_ne (k k' : String) (v : Reading) (h : k' ≠ k) :
    ∀ d : List (String × Reading),
      (assocSet d k v).lookup k' = d.lookup k'
  | [] => by
      simp [assocSet, List.lookup, beq_eq_false_iff_ne.mpr h]
  | p :: rest => by
      by_cases hp : p.1 = k
      · have hf2 : (k' == p.1) = false :=
          beq_eq_false_iff_ne.mpr (by rw [hp]; exact h)
        simp only [assocSet, if_pos hp, List.lookup]
        rw [← hp]
        simp [hf2]
      · simp only [assocSet, if_neg hp, List.lookup]
        cases hkp : (k' == p.1) with
        | true => rfl
        | false => exact lookup_assocSet_ne k k' v h rest

theorem listenerStep_lookup_ne (st : LState) (e : String × Reading)
    (k : String) (h : k ≠ e.1) :
    (listenerStep st e).1.data.lookup k = st.data.lookup k := by
  unfold listenerStep
  cases hl : st.data.lookup e.1 with
  | none => exact lookup_assocSet_ne e.1 k _ h st.data
  | some stored =>
      by_cases hv : stored.value ≠ none
      · by_cases heq : e.2.value = stored.value
        · simp [hv, heq]
        · simp only [if_pos hv, if_neg heq]
          exact lookup_assocSet_ne e.1 k _ h st.data
      · simp [hv]

theorem skips_step_ne (st : LState) (e : String × Reading) (k : String)
    (r : Reading) (h : k ≠ e.1) :
    skips (listenerStep st e).1 k r = skips st k r := by
  unfold skips
  rw [listenerStep_lookup_ne st e k h]

theorem keyPubCount_append (a b : List Pub) (k : String) :
    keyPubCount (a ++ b) k = keyPubCount a k + keyPubCount b k := by
  simp [keyPubCount, List.filter_append]

theorem keyPubCount_step_ne (st : LState) (e : String × Reading)
    (k : String) (h : e.1 ≠ k) :
    keyPubCount (listenerStep st e).2 k = 0 := by
  have hf : (e.1 == k) = false := beq_eq_false_iff_ne.mpr h
  unfold listenerStep
  cases hl : st.data.lookup e.1 with
  | none =>
      cases hc : st.clock <;>
        simp [keyPubCount, dtPubs, hc, List.filter, hf]
  | some stored =>
      by_cases hv : stored.value ≠ none
      · by_cases heq : e.2.value = stored.value
        · simp [hv, heq, keyPubCount]
        · simp only [if_pos hv, if_neg heq]
          cases hc : mergeClock st.clock e.2.ts <;>
            simp [keyPubCount, dtPubs, hc, List.filter, hf]
      · cases hc : st.clock <;>
          simp [hv, keyPubCount, dtPubs, hc, List.filter, hf]

theorem keyPubCount_step_self (st : LState) (e : String × Reading) :
    keyPubCount (listenerStep st e).2 e.1 =
      (if skips st e.1 e.2 = true then 0 else 1) := by
  unfold listenerStep skips
  cases hl : st.data.lookup e.1 with
  | none =>
      cases hc : st.clock <;>
        simp [keyPubCount, dtPubs, hc, List.filter]
  | some stored =>
      by_cases hv : stored.value ≠ none
      · have hvs : stored.value.isSome = true := by
          cases hs : stored.value with
          | none => exact absurd hs hv
          | some x => rfl
        by_cases heq : e.2.value = stored.value
        · simp [hv, heq, hvs, keyPubCount]
        · have hne : (e.2.value == stored.value) = false :=
            beq_eq_false_iff_ne.mpr heq
          simp only [if_pos hv, if_neg heq, hvs, hne, Bool.true_and]
          cases hc : mergeClock st.clock e.2.ts <;>
            simp [keyPubCount, dtPubs, hc, List.filter]
      · have hvs : stored.value.isSome = false := by
          cases hs : stored.value with
          | none => rfl
          | some x => exact absurd (by simp [hs]) hv
        cases hc : st.clock <;>
          simp [hv, hvs, keyPubCount, dtPubs, hc, List.filter]

theorem keyPubCount_run_not_mem (batch : List (String × Reading)) :
    ∀ (st : LState) (k : String), (∀ e ∈ batch, e.1 ≠ k) →
      keyPubCount (runListener st batch).2 k = 0 := by
  induction batch with
  | nil => intro st k _; rfl
  | cons f rest ih =>
      intro st k h
      simp only [runListener]
      rw [keyPubCount_append]
      rw [keyPubCount_step_ne st f k (h f (List.mem_cons_self f rest))]
      rw [ih _ k (fun e he => h e (List.mem_cons_of_mem f he))]

/-- C2 amended: in every batch with distinct keys, each (key, reading)
entry is forwarded exactly once unless the key was previously seen with a
non-None stored value equal to the incoming value, in which case it is
forwarded zero times (the listener deduplicates unchanged values). -/
theorem listener_forwards_iff_changed :
    ∀ (st : LState) (batch : List (String × Reading)),
      (batch.map Prod.fst).Nodup →
      ∀ e ∈ batch,
        keyPubCount (runListener st batch).2 e.1 =
          (if skips st e.1 e.2 = true then 0 else 1) := by
  intro st batch
  induction batch generalizing st with
  | nil => intro _ e he; exact absurd he (List.not_mem_nil e)
  | cons f rest ih =>
      intro hnodup e he
      have hnd : f.1 ∉ rest.map Prod.fst ∧ (rest.map Prod.fst).Nodup := by
        rw [List.map_cons, List.nodup_cons] at hnodup
        exact hnodup
      simp only [runListener]
      rw [keyPubCount_append]
      rcases List.mem_cons.mp he with rfl | hmem
      · rw [keyPubCount_step_self st e]
        rw [keyPubCount_run_not_mem rest (listenerStep st e).1 e.1
          (fun e' he' => by
            intro hk
            exact hnd.1 (hk ▸ List.mem_map_of_mem Prod.fst he'))]
        simp
      · have hke : e.1 ≠ f.1 := by
          intro hk
          exact hnd.1 (hk ▸ List.mem_map_of_mem Prod.fst hmem)
        rw [keyPubCount_step_ne st f e.1 (fun hk => hke hk.symm)]
        rw [ih (listenerStep st f).1 hnd.2 e hmem]
        rw [skips_step_ne st f e.1 e.2 hke]
        simp

/-- C2 amended, witness: a fresh key in a batch is forwarded exactly once. -/
theorem listener_forwards_iff_changed_witness :
    keyPubCount (runListener ⟨[], none⟩ [("k", ⟨some 5, 100, "u"⟩)]).2 "k" =
      (if skips ⟨[], none⟩ "k" ⟨some 5, 100, "u"⟩ = true then 0 else 1) :=
  listener_forwards_iff_changed ⟨[], none⟩ [("k", ⟨some 5, 100, "u"⟩)]
    (by decide) ("k", ⟨some 5, 100, "u"⟩) (by decide)

/-- C4: the observation clock advances once per forwarded key, not once per
merged batch: one batch updating two known keys advances the clock by two
seconds (100 to 102) and publishes two clock updates. -/
theorem clock_advances_per_key_not_per_batch :
    (runListener
      ⟨[("a", ⟨some 1, 10, "u"⟩), ("b", ⟨some 2, 10, "u"⟩)], some 100⟩
      [("a", ⟨some 5, 50, "u"⟩), ("b", ⟨some 6, 60, "u"⟩)]).1.clock =
        some 102 ∧
    dtPubCount (runListener
      ⟨[("a", ⟨some 1, 10, "u"⟩), ("b", ⟨some 2, 10, "u"⟩)], some 100⟩
      [("a", ⟨some 5, 50, "u"⟩), ("b", ⟨some 6, 60, "u"⟩)]).2 = 2 := by
  decide

theorem listenerStep_clock_mono (st : LState) (e : String × Reading)
    (t : Int) (h : st.clock = some t) :
    ∃ t', (listenerStep st e).1.clock = some t' ∧ t ≤ t' := by
  unfold listenerStep
  cases hl : st.data.lookup e.1 with
  | none =>
      exact ⟨t + 1, by simp [bumpClock, h], by omega⟩
  | some stored =>
      by_cases hv : stored.value ≠ none
      · by_cases heq : e.2.value = stored.value
        · simp only [if_pos hv, if_pos heq, mergeClock, h]
          by_cases hlt : t < e.2.ts
          · exact ⟨e.2.ts, by simp [hlt], le_of_lt hlt⟩
          · exact ⟨t, by simp [hlt], le_refl t⟩
        · simp only [if_pos hv, if_neg heq, mergeClock, h]
          by_cases hlt : t < e.2.ts
          · exact ⟨e.2.ts + 1, by simp [hlt, bumpClock], by omega⟩
          · exact ⟨t + 1, by simp [hlt, bumpClock], by omega⟩
      · exact ⟨t + 1, by simp [hv, bumpClock, h], by omega⟩

theorem runListener_clock_mono (batch : List (String × Reading)) :
    ∀ (st : LState) (t : Int), st.clock = some t →
      ∃ t', (runListener st batch).1.clock = some t' ∧ t ≤ t' := by
  induction batch with
  | nil => intro st t h; exact ⟨t, h, le_refl t⟩
  | cons f rest ih =>
      intro st t h
      obtain ⟨t1, h1, ht1⟩ := listenerStep_clock_mono st f t h
      obtain ⟨t2, h2, ht2⟩ := ih (listenerStep st f).1 t1 h1
      exact ⟨t2, h2, le_trans ht1 ht2⟩

theorem listenerStep_counts (st : LState) (e : String × Reading)
    (h : st.clock.isSome = true) :
    dtPubCount (listenerStep st e).2 = keyPubTotal (listenerStep st e).2 := by
  obtain ⟨t, ht⟩ := Option.isSome_iff_exists.mp h
  unfold listenerStep
  cases hl : st.data.lookup e.1 with
  | none => simp [dtPubCount, keyPubTotal, dtPubs, ht, List.filter]
  | some stored =>
      by_cases hv : stored.value ≠ none
      · by_cases heq : e.2.value = stored.value
        · simp [hv, heq, dtPubCount, keyPubTotal]
        · have hm : ∃ c, mergeClock st.clock e.2.ts = some c := by
            rw [ht]
            by_cases hlt : t < e.2.ts <;> simp [mergeClock, hlt]
          obtain ⟨c, hc⟩ := hm
          simp only [if_pos hv, if_neg heq, hc]
          simp [dtPubCount, keyPubTotal, dtPubs, hc, List.filter]
      · simp [hv, dtPubCount, keyPubTotal, dtPubs, ht, List.filter]

theorem listenerStep_clock_isSome (st : LState) (e : String × Reading)
    (h : st.clock.isSome = true) :
    (listenerStep st e).1.clock.isSome = true := by
  obtain ⟨t, ht⟩ := Option.isSome_iff_exists.mp h
  obtain ⟨t', ht', _⟩ := listenerStep_clock_mono st e t ht
  simp [ht']

theorem dtPubCount_append (a b : List Pub) :
    dtPubCount (a ++ b) = dtPubCount a + dtPubCount b := by
  simp [dtPubCount, List.filter_append]

theorem keyPubTotal_append (a b : List Pub) :
    keyPubTotal (a ++ b) = keyPubTotal a + keyPubTotal b := by
  simp [keyPubTotal, List.filter_append]

/-- C4 amended: the observation clock never decreases across merged
batches, and while it is set it advances by exactly one second per
forwarded key — one clock publish per key publish — rather than one second
per batch. -/
theorem clock_monotone_and_per_key :
    (∀ (st : LState) (batch : List (String × Reading)) (t : Int),
        st.clock = some t →
        ∃ t', (runListener st batch).1.clock = some t' ∧ t ≤ t') ∧
    (∀ (st : LState) (batch : List (String × Reading)),
        st.clock.isSome = true →
        dtPubCount (runListener st batch).2 =
          keyPubTotal (runListener st batch).2) := by
  constructor
  · intro st batch
    exact fun t h => runListener_clock_mono batch st t h
  · intro st batch
    induction batch generalizing st with
    | nil => intro _; rfl
    | cons f rest ih =>
        intro h
        simp only [runListener]
        rw [dtPubCount_append, keyPubTotal_append]
        rw [listenerStep_counts st f h]
        rw [ih (listenerStep st f).1 (listenerStep_clock_isSome st f h)]

/-- C4 amended, witness: clock set to 0, one fresh key forwarded. -/
theorem clock_monotone_and_per_key_witness :
    (∃ t', (runListener ⟨[], some 0⟩
        [("k", ⟨some 1, 5, "u"⟩)]).1.clock = some t' ∧ 0 ≤ t') ∧
    dtPubCount (runListener ⟨[], some 0⟩ [("k", ⟨some 1, 5, "u"⟩)]).2 =
      keyPubTotal (runListener ⟨[], some 0⟩ [("k", ⟨some 1, 5, "u"⟩)]).2 :=
  ⟨clock_monotone_and_per_key.1 ⟨[], some 0⟩ [("k", ⟨some 1, 5, "u"⟩)] 0 rfl,
   clock_monotone_and_per_key.2 ⟨[], some 0⟩ [("k", ⟨some 1, 5, "u"⟩)] rfl⟩

/- Trend (ws.py, WeatherStation._trend): numpy.polyfit(range(len(data)),
   data, 1)[0], the least-squares degree-1 fit, returning 0 for series of
   length ≤ 1.  polyfit's slope is embedded by its closed form
   (n·Σxy − Σx·Σy) / (n·Σx² − (Σx)²) over exact rationals, and proved
   below to minimise the sum of squared residuals. -/

def nthQ (ys : List ℚ) (i : Nat) : ℚ := ys.getD i 0

def sxOf (n : Nat) : ℚ :=
  Finset.sum (Finset.range n) (fun i => (i : ℚ))

def sxxOf (n : Nat) : ℚ :=
  Finset.sum (Finset.range n) (fun i => ((i : ℚ)) ^ 2)

def syOf (ys : List ℚ) : ℚ :=
  Finset.sum (Finset.range ys.length) (fun i => nthQ ys i)

def sxyOf (ys : List ℚ) : ℚ :=
  Finset.sum (Finset.range ys.length) (fun i => (i : ℚ) * nthQ ys i)

def detOf (n : Nat) : ℚ := (n : ℚ) * sxxOf n - (sxOf n) ^ 2

def slope (ys : List ℚ) : ℚ :=
  ((ys.length : ℚ) * sxyOf ys - sxOf ys.length * syOf ys) / detOf ys.length

def icept (ys : List ℚ) : ℚ :=
  (syOf ys - slope ys * sxOf ys.length) / (ys.length : ℚ)

def trend (ys : List ℚ) : ℚ := if ys.length ≤ 1 then 0 else slope ys

/- The per-hour scaling applied in _bme280_sample:
   _trend(series) * 3600 / interval_seconds. -/
def scaledTrend (interval : ℚ) (ys : List ℚ) : ℚ :=
  trend ys * 3600 / interval

def SSE (ys : List ℚ) (m b : ℚ) : ℚ :=
  Finset.sum (Finset.range ys.length)
    (fun i => (nthQ ys i - (m * i + b)) ^ 2)

def resid (ys : List ℚ) (i : Nat) : ℚ :=
  nthQ ys i - (slope ys * i + icept ys)

theorem two_mul_sxOf (n : Nat) : 2 * sxOf n = (n : ℚ) * ((n : ℚ) - 1) := by
  induction n with
  | zero => simp [sxOf]
  | succ m ih =>
      have h : sxOf (m + 1) = sxOf m + (m : ℚ) := by
        unfold sxOf
        rw [Finset.sum_range_succ]
      rw [h, mul_add, ih]
      push_cast
      ring

theorem six_mul_sxxOf (n : Nat) :
    6 * sxxOf n = (n : ℚ) * ((n : ℚ) - 1) * (2 * (n : ℚ) - 1) := by
  induction n with
  | zero => simp [sxxOf]
  | succ m ih =>
      have h : sxxOf (m + 1) = sxxOf m + ((m : ℚ)) ^ 2 := by
        unfold sxxOf
        rw [Finset.sum_range_succ]
      rw [h, mul_add, ih]
      push_cast
      ring

theorem twelve_mul_detOf (n : Nat) :
    12 * detOf n = ((n : ℚ)) ^ 2 * (((n : ℚ)) ^ 2 - 1) := by
  have h2 := two_mul_sxOf n
  have h6 := six_mul_sxxOf n
  calc 12 * detOf n
      = 2 * (n : ℚ) * (6 * sxxOf n) - 3 * (2 * sxOf n) ^ 2 := by
        unfold detOf; ring
    _ = 2 * (n : ℚ) * ((n : ℚ) * ((n : ℚ) - 1) * (2 * (n : ℚ) - 1))
          - 3 * ((n : ℚ) * ((n : ℚ) - 1)) ^ 2 := by rw [h6, h2]
    _ = ((n : ℚ)) ^ 2 * (((n : ℚ)) ^ 2 - 1) := by ring

theorem detOf_pos (n : Nat) (h : 2 ≤ n) : 0 < detOf n := by
  have h12 := twelve_mul_detOf n
  have hn : (2 : ℚ) ≤ (n : ℚ) := by exact_mod_cast h
  have h4 : (4 : ℚ) ≤ ((n : ℚ)) ^ 2 := by nlinarith [hn]
  have h3 : (3 : ℚ) ≤ ((n : ℚ)) ^ 2 - 1 := by linarith
  have h12le : (12 : ℚ) ≤ ((n : ℚ)) ^ 2 * (((n : ℚ)) ^ 2 - 1) := by
    nlinarith [h4, h3]
  linarith

theorem sum_resid (ys : List ℚ) (h : 2 ≤ ys.length) :
    Finset.sum (Finset.range ys.length) (fun i => resid ys i) = 0 := by
  have hn : ((ys.length : ℚ)) ≠ 0 := Nat.cast_ne_zero.mpr (by omega)
  have hsplit : Finset.sum (Finset.range ys.length) (fun i => resid ys i)
      = syOf ys - (slope ys * sxOf ys.length
          + (ys.length : ℚ) * icept ys) := by
    unfold resid syOf sxOf
    rw [Finset.sum_sub_distrib, Finset.sum_add_distrib, ← Finset.mul_sum,
      Finset.sum_const, Finset.card_range, nsmul_eq_mul]
  rw [hsplit]
  unfold icept
  field_simp

theorem sum_x_resid (ys : List ℚ) (h : 2 ≤ ys.length) :
    Finset.sum (Finset.range ys.length)
      (fun i => (i : ℚ) * resid ys i) = 0 := by
  have hn : ((ys.length : ℚ)) ≠ 0 := Nat.cast_ne_zero.mpr (by omega)
  have hdet : detOf ys.length ≠ 0 := ne_of_gt (detOf_pos ys.length h)
  have hsplit : Finset.sum (Finset.range ys.length)
      (fun i => (i : ℚ) * resid ys i)
      = sxyOf ys - (slope ys * sxxOf ys.length
          + icept ys * sxOf ys.length) := by
    unfold resid sxyOf sxxOf sxOf
    rw [Finset.mul_sum, Finset.mul_sum, ← Finset.sum_add_distrib,
      ← Finset.sum_sub_distrib]
    apply Finset.sum_congr rfl
    intro i _
    ring
  rw [hsplit]
  unfold icept slope
  field_simp
  unfold detOf
  ring

theorem sse_optimal (ys : List ℚ) (h : 2 ≤ ys.length) (m b : ℚ) :
    SSE ys (slope ys) (icept ys) ≤ SSE ys m b := by
  have hexp : SSE ys m b = SSE ys (slope ys) (icept ys)
      + ((2 * (slope ys - m)) * Finset.sum (Finset.range ys.length)
            (fun i => (i : ℚ) * resid ys i)
          + (2 * (icept ys - b)) * Finset.sum (Finset.range ys.length)
            (fun i => resid ys i))
      + Finset.sum (Finset.range ys.length)
          (fun i => ((slope ys - m) * i + (icept ys - b)) ^ 2) := by
    unfold SSE resid
    rw [Finset.mul_sum, Finset.mul_sum, ← Finset.sum_add_distrib,
      ← Finset.sum_add_distrib, ← Finset.sum_add_distrib]
    apply Finset.sum_congr rfl
    intro i _
    ring
  rw [hexp, sum_resid ys h, sum_x_resid ys h]
  have hsq : 0 ≤ Finset.sum (Finset.range ys.length)
      (fun i => ((slope ys - m) * i + (icept ys - b)) ^ 2) :=
    Finset.sum_nonneg (fun i _ => sq_nonneg _)
  linarith

/-- C7: the trend reduction is 0 on every series of length ≤ 1; on longer
series it is the least-squares linear-regression slope of the series
against sample index 0, 1, 2, … — for every competing line (m, b) the
fitted slope and intercept give a sum of squared residuals no larger —
and, scaled by 3600/interval to per-hour change, the trend of [1, 2, 3]
at a 60-second interval is 60. -/
theorem trend_least_squares :
    (∀ ys : List ℚ, ys.length ≤ 1 → trend ys = 0) ∧
    scaledTrend 60 [1, 2, 3] = 60 ∧
    (∀ ys : List ℚ, 2 ≤ ys.length → ∀ m b : ℚ,
      SSE ys (trend ys) (icept ys) ≤ SSE ys m b) := by
  refine ⟨fun ys hy => if_pos hy, ?_, fun ys hy m b => ?_⟩
  · norm_num [scaledTrend, trend, slope, detOf, sxOf, sxxOf, syOf, sxyOf,
      nthQ, Finset.sum_range_succ]
  · have hnot : ¬ (ys.length ≤ 1) := by omega
    rw [trend, if_neg hnot]
    exact sse_optimal ys hy m b

/-- C7 witness: length-1 series has trend 0, and on [1, 2, 3] the fitted
line beats the zero line. -/
theorem trend_least_squares_witness :
    trend [(5 : ℚ)] = 0 ∧
    SSE [(1 : ℚ), 2, 3] (trend [(1 : ℚ), 2, 3]) (icept [(1 : ℚ), 2, 3]) ≤
      SSE [(1 : ℚ), 2, 3] 0 0 :=
  ⟨trend_least_squares.1 [5] (by decide),
   trend_least_squares.2.2 [1, 2, 3] (by decide) 0 0⟩

/- Wind-direction classifier (ws.py, WindDirectionSampler).  The table of
   reference resistances by angle, in source order (decreasing
   resistance). -/

def RESISTANCE_BY_ANGLE : List (ℚ × ℚ) :=
  [(270, 120000), (315, 64900), (292.5, 42120), (0, 33000),
   (337.5, 21880), (225, 16000), (247.5, 14120), (45, 8200),
   (22.5, 6570), (180, 3900), (202.5, 3140), (135, 2200),
   (157.5, 1410), (90, 1000), (67.5, 891), (112.5, 668)]

/- The voltage-divider fractions r/(r + resistance), one per table entry
   (the `values` list in __init__). -/
def tableValues (r : ℚ) : List ℚ :=
  RESISTANCE_BY_ANGLE.map (fun p => r / (r + p.2))

/- The threshold-building loop in __init__, including its counter that is
   bumped only on non-final iterations: the last entry receives threshold
   1, every other entry i receives (values[i] + values[i+1]) / 2. -/
def thrGo (vals : List ℚ) (total : Nat) : Nat → List ℚ → List (ℚ × ℚ)
  | _, [] => []
  | i, angle :: rest =>
      if i = total - 1 then (angle, 1) :: thrGo vals total i rest
      else (angle, (vals.getD i 0 + vals.getD (i + 1) 0) / 2) ::
        thrGo vals total (i + 1) rest

def thresholds_by_angle (r : ℚ) : List (ℚ × ℚ) :=
  thrGo (tableValues r) RESISTANCE_BY_ANGLE.length 0
    (RESISTANCE_BY_ANGLE.map Prod.fst)

/- The `degree` property: return the first angle (in table order) whose
   threshold is at least the sampled value; None if no threshold matches. -/
def firstLE (value : ℚ) : List (ℚ × ℚ) → Option ℚ
  | [] => none
  | p :: rest => if value ≤ p.2 then some p.1 else firstLE value rest

def degree (r : ℚ) (value : ℚ) : Option ℚ :=
  firstLE value (thresholds_by_angle r)

theorem tableValues_eval :
    tableValues 4700 =
      [(47/1247), (47/696), (235/2341), (47/377), (235/1329), (47/207),
       (235/941), (47/129), (470/1127), (47/86), (235/392), (47/69),
       (10/13), (47/57), (4700/5591), (1175/1342)] := by
  norm_num [tableValues, RESISTANCE_BY_ANGLE]

theorem thresholds_eval :
    thresholds_by_angle 4700 =
      [(270, (3149/59856)), (315, (273587/3258672)),
       ((585/2 : ℚ), (99311/882557)), (0, (75529/501033)),
       ((675/2 : ℚ), (18518/91701)), (225, (46436/194787)),
       ((495/2 : ℚ), (37271/121389)), (45, (113599/290766)),
       ((45/2 : ℚ), (93389/193844)), (180, (19317/33712)),
       ((405/2 : ℚ), (34639/54096)), (135, (1301/1794)),
       ((315/2 : ℚ), (1181/1482)), (90, (530677/637374)),
       ((135/2 : ℚ), (12876825/15006244)), ((225/2 : ℚ), 1)] := by
  rw [thresholds_by_angle, tableValues_eval]
  norm_num [thrGo, RESISTANCE_BY_ANGLE, List.getD]

/-- C9: with the fixed 16-entry resistance table and pull-up resistance
4700 Ω, a sampled value exactly equal to a table entry's voltage fraction
4700/(4700 + resistance) classifies to that entry's angle, and a value of
1.0 classifies to the table's last angle, 112.5. -/
theorem wind_direction_classification :
    (∀ p ∈ RESISTANCE_BY_ANGLE,
      degree 4700 (4700 / (4700 + p.2)) = some p.1) ∧
    degree 4700 1 = some (112.5 : ℚ) := by
  constructor
  · intro p hp
    fin_cases hp <;>
    · unfold degree
      rw [thresholds_eval]
      norm_num [firstLE]
  · unfold degree
    rw [thresholds_eval]
    norm_num [firstLE]

/-- C9 witness: the first table entry, 270 degrees at 120 kΩ. -/
theorem wind_direction_classification_witness :
    degree 4700 (4700 / (4700 + 120000)) = some 270 :=
  wind_direction_classification.1 (270, 120000)
    (by simp [RESISTANCE_BY_ANGLE])

/- Circular mean (ws.py, WeatherStation.average_angles).  Angles are
   converted to radians, the sin and cos sums are divided by the sample
   count, and arc = degrees(atan(s/c)) with the ZeroDivisionError handler
   substituting arc = 90 when the denominator is exactly zero.  The float
   arithmetic is idealised as exact reals. -/

noncomputable def radians (x : ℝ) : ℝ := x * (Real.pi / 180)

noncomputable def degreesOf (x : ℝ) : ℝ := x * 180 / Real.pi

noncomputable def sbar (angles : List ℝ) : ℝ :=
  (angles.map (fun a => Real.sin (radians a))).sum / (angles.length : ℝ)

noncomputable def cbar (angles : List ℝ) : ℝ :=
  (angles.map (fun a => Real.cos (radians a))).sum / (angles.length : ℝ)

open Classical in
noncomputable def arcOf (angles : List ℝ) : ℝ :=
  if cbar angles = 0 then 90
  else degreesOf (Real.arctan (sbar angles / cbar angles))

/- The branch chain assigning `average` in average_angles, in source
   order; the final fallthrough leaves the initial value 0.0. -/
open Classical in
noncomputable def rawAverage (angles : List ℝ) : ℝ :=
  if sbar angles > 0 ∧ cbar angles ≥ 0 then arcOf angles
  else if cbar angles ≤ 0 then arcOf angles + 180
  else if sbar angles < 0 ∧ cbar angles > 0 then arcOf angles + 360
  else 0

open Classical in
noncomputable def average_angles (angles : List ℝ) : ℝ :=
  if rawAverage angles = 360 then 0 else rawAverage angles

/- The claim's version of the branch conditions: arc when c̄ > 0 ∧ s̄ ≥ 0,
   arc + 180 when c̄ ≤ 0, arc + 360 otherwise (c̄ > 0 ∧ s̄ < 0), with the
   same 360-to-0 fold. -/
open Classical in
noncomputable def circularMeanClaim (angles : List ℝ) : ℝ :=
  if (if cbar angles > 0 ∧ sbar angles ≥ 0 then arcOf angles
      else if cbar angles ≤ 0 then arcOf angles + 180
      else arcOf angles + 360) = 360 then 0
  else
    if cbar angles > 0 ∧ sbar angles ≥ 0 then arcOf angles
    else if cbar angles ≤ 0 then arcOf angles + 180
    else arcOf angles + 360

/- Python raises ZeroDivisionError dividing the sums by a zero sample
   count; only that fault is unguarded, so evaluation is modelled as None
   exactly on the empty list. -/
noncomputable def average_anglesChecked (angles : List ℝ) : Option ℝ :=
  if angles.length = 0 then none else some (average_angles angles)

theorem radians_zero : radians 0 = 0 := by
  unfold radians; ring

theorem radians_90 : radians 90 = Real.pi / 2 := by
  unfold radians; ring

theorem sbar_90 : sbar [(90 : ℝ)] = 1 := by
  unfold sbar
  simp [radians_90, Real.sin_pi_div_two]

theorem cbar_90 : cbar [(90 : ℝ)] = 0 := by
  unfold cbar
  simp [radians_90, Real.cos_pi_div_two]

/-- C8, counterexample: at the window [90] the sin mean is 1 and the cos
mean is exactly 0, so the code's first branch (s̄ > 0 ∧ c̄ ≥ 0) returns
arc = 90, while the claim's stated conditions fall into the c̄ ≤ 0 branch
and give arc + 180 = 270. -/
theorem average_angles_claim_mismatch_at_90 :
    average_angles [(90 : ℝ)] = 90 ∧
    circularMeanClaim [(90 : ℝ)] = 270 ∧
    average_angles [(90 : ℝ)] ≠ circularMeanClaim [(90 : ℝ)] := by
  have harc : arcOf [(90 : ℝ)] = 90 := by
    unfold arcOf
    rw [cbar_90]
    simp
  have havg : average_angles [(90 : ℝ)] = 90 := by
    unfold average_angles rawAverage
    rw [sbar_90, cbar_90, harc]
    norm_num
  have hclaim : circularMeanClaim [(90 : ℝ)] = 270 := by
    unfold circularMeanClaim
    rw [sbar_90, cbar_90, harc]
    norm_num
  exact ⟨havg, hclaim, by rw [havg, hclaim]; norm_num⟩

theorem sbar_0_90 : sbar [(0 : ℝ), 90] = 1 / 2 := by
  unfold sbar
  simp [radians_zero, radians_90, Real.sin_pi_div_two]

theorem cbar_0_90 : cbar [(0 : ℝ), 90] = 1 / 2 := by
  unfold cbar
  simp [radians_zero, radians_90, Real.cos_pi_div_two]

theorem arcOf_0_90 : arcOf [(0 : ℝ), 90] = 45 := by
  unfold arcOf
  rw [if_neg (by rw [cbar_0_90]; norm_num)]
  rw [sbar_0_90, cbar_0_90]
  have h1 : ((1 : ℝ) / 2) / ((1 : ℝ) / 2) = 1 := by norm_num
  rw [h1, Real.arctan_one]
  unfold degreesOf
  have hpi := Real.pi_ne_zero
  field_simp
  ring

theorem radians_350 : radians 350 = 2 * Real.pi - radians 10 := by
  unfold radians; ring

theorem sin_radians_350 : Real.sin (radians 350) = -Real.sin (radians 10) := by
  rw [radians_350, Real.sin_sub, Real.sin_two_pi, Real.cos_two_pi]
  ring

theorem cos_radians_350 : Real.cos (radians 350) = Real.cos (radians 10) := by
  rw [radians_350, Real.cos_sub, Real.cos_two_pi, Real.sin_two_pi]
  ring

theorem sbar_350_10 : sbar [(350 : ℝ), 10] = 0 := by
  unfold sbar
  simp [sin_radians_350]

theorem cbar_350_10 : cbar [(350 : ℝ), 10] = Real.cos (radians 10) := by
  unfold cbar
  rw [List.map_cons, List.map_cons, List.map_nil, List.sum_cons,
    List.sum_cons, List.sum_nil, cos_radians_350]
  simp

theorem cos_radians_10_pos : 0 < Real.cos (radians 10) := by
  apply Real.cos_pos_of_mem_Ioo
  unfold radians
  constructor
  · nlinarith [Real.pi_pos]
  · nlinarith [Real.pi_pos]

theorem degreesOf_lt_90 {x : ℝ} (h : x < Real.pi / 2) : degreesOf x < 90 := by
  unfold degreesOf
  rw [div_lt_iff₀ Real.pi_pos]
  linarith

theorem neg_90_lt_degreesOf {x : ℝ} (h : -(Real.pi / 2) < x) :
    -90 < degreesOf x := by
  unfold degreesOf
  rw [lt_div_iff₀ Real.pi_pos]
  linarith

theorem degreesOf_pos {x : ℝ} (h : 0 < x) : 0 < degreesOf x := by
  unfold degreesOf
  exact div_pos (mul_pos h (by norm_num)) Real.pi_pos

theorem degreesOf_neg {x : ℝ} (h : x < 0) : degreesOf x < 0 := by
  unfold degreesOf
  exact div_neg_of_neg_of_pos (mul_neg_of_neg_of_pos h (by norm_num))
    Real.pi_pos

theorem arcOf_bounds (angles : List ℝ) :
    -90 < arcOf angles ∧ arcOf angles ≤ 90 := by
  unfold arcOf
  split_ifs with hc
  · constructor <;> norm_num
  · exact ⟨neg_90_lt_degreesOf (Real.neg_pi_div_two_lt_arctan _),
      le_of_lt (degreesOf_lt_90 (Real.arctan_lt_pi_div_two _))⟩

theorem arcOf_nonneg (angles : List ℝ) (hs : 0 < sbar angles)
    (hc : 0 ≤ cbar angles) : 0 ≤ arcOf angles := by
  unfold arcOf
  split_ifs with hc0
  · norm_num
  · have hcpos : 0 < cbar angles := lt_of_le_of_ne hc (Ne.symm hc0)
    have harc : 0 < Real.arctan (sbar angles / cbar angles) := by
      have h0 : (0 : ℝ) < sbar angles / cbar angles := div_pos hs hcpos
      have h1 := Real.arctan_strictMono h0
      rwa [Real.arctan_zero] at h1
    exact le_of_lt (degreesOf_pos harc)

theorem arcOf_neg_of (angles : List ℝ) (hs : sbar angles < 0)
    (hc : 0 < cbar angles) : arcOf angles < 0 := by
  unfold arcOf
  rw [if_neg (ne_of_gt hc)]
  have h0 : sbar angles / cbar angles < 0 := div_neg_of_neg_of_pos hs hc
  have h1 := Real.arctan_strictMono h0
  rw [Real.arctan_zero] at h1
  exact degreesOf_neg h1

theorem rawAverage_mem (angles : List ℝ) :
    0 ≤ rawAverage angles ∧ rawAverage angles < 360 := by
  obtain ⟨hlo, hhi⟩ := arcOf_bounds angles
  unfold rawAverage
  split_ifs with h1 h2 h3
  · exact ⟨arcOf_nonneg angles h1.1 h1.2,
      lt_of_le_of_lt hhi (by norm_num)⟩
  · constructor <;> linarith
  · have hneg := arcOf_neg_of angles h3.1 h3.2
    constructor <;> linarith
  · exact ⟨le_refl 0, by norm_num⟩

/-- C8 amended: the circular mean of [0, 90] is 45 and of [350, 10] is 0
(wrap-around), and for every non-empty window the result lies in
[0, 360); the branch conditions, however, are the code's (s̄ > 0 ∧ c̄ ≥ 0
→ arc; else c̄ ≤ 0 → arc + 180; else s̄ < 0 ∧ c̄ > 0 → arc + 360; else 0),
which at c̄ = 0, s̄ > 0 give arc = 90, not the claimed arc + 180. -/
theorem average_angles_examples_and_range :
    average_angles [(0 : ℝ), 90] = 45 ∧
    average_angles [(350 : ℝ), 10] = 0 ∧
    (∀ angles : List ℝ, angles ≠ [] →
      0 ≤ average_angles angles ∧ average_angles angles < 360) := by
  refine ⟨?_, ?_, ?_⟩
  · unfold average_angles rawAverage
    rw [sbar_0_90, cbar_0_90, arcOf_0_90]
    norm_num
  · unfold average_angles rawAverage
    rw [sbar_350_10, cbar_350_10]
    have hc' : ¬(Real.cos (radians 10) ≤ 0) := not_le.mpr cos_radians_10_pos
    norm_num [hc']
  · intro angles _
    unfold average_angles
    split_ifs with hf
    · exact ⟨le_refl 0, by norm_num⟩
    · exact rawAverage_mem angles

/-- C8 amended, witness: the window [45] is non-empty and its mean lies in
[0, 360). -/
theorem average_angles_examples_and_range_witness :
    0 ≤ average_angles [(45 : ℝ)] ∧ average_angles [(45 : ℝ)] < 360 :=
  average_angles_examples_and_range.2.2 [45] (by simp)

/-- C10: evaluating the circular mean faults only on the empty window: the
unguarded division of the sin/cos sums by the sample count is the sole
failure (modelled as None at length 0), every non-empty window yields a
value (the only guarded division is the atan denominator, which falls
back to arc = 90), and the sampler's _store always hands the callback a
non-empty window because the new sample is appended before the callback
is dispatched. -/
theorem average_angles_safety :
    average_anglesChecked [] = none ∧
    (∀ angles : List ℝ, angles ≠ [] →
      average_anglesChecked angles = some (average_angles angles)) ∧
    (∀ (size : Nat) (data : List ℝ) (x : ℝ), store size data x ≠ []) := by
  refine ⟨rfl, ?_, ?_⟩
  · intro angles h
    unfold average_anglesChecked
    rw [if_neg (fun h0 => h (List.length_eq_zero.mp h0))]
  · intro size data x
    unfold store pyTail
    by_cases hk : size = 0
    · simp [hk]
    · rw [if_neg hk, Ne, List.drop_eq_nil_iff]
      simp only [List.length_append, List.length_singleton]
      omega

/-- C10 witness: a singleton window evaluates, and a store with capacity 3
hands the callback a non-empty window. -/
theorem average_angles_safety_witness :
    average_anglesChecked [(30 : ℝ)] = some (average_angles [(30 : ℝ)]) ∧
    store 3 ([] : List ℝ) 0 ≠ [] :=
  ⟨average_angles_safety.2.1 [30] (by simp),
   average_angles_safety.2.2 3 [] 0⟩

end WS
